import Mathlib

/-!
Shallow embedding of the subtitle timing and layout engine of the
YouTube-Shorts automation pipeline (`src/utils/video_creator.py`) and of the
fact-deduplication check (`src/utils/script_generator.py`), together with
theorems settling the specification claims about them.

Timestamps, durations and similarity ratios are modelled as rationals;
Python dict records become structures.  The Python field name `end` is
rendered as `stop` (`end` is a Lean keyword).
-/

namespace YTShorts

/-- `self.min_gap_between_text = 0.1` in `VideoCreator.__init__`. -/
def min_gap_between_text : ℚ := 1/10

/-- `self.min_display_time = 1.0` in `VideoCreator.__init__`. -/
def min_display_time : ℚ := 1

/-- `self.max_display_time = 3.0` in `VideoCreator.__init__`. -/
def max_display_time : ℚ := 3

/-- A raw subtitle cue, a dict with keys `text`, `start`, `end` built in
`_create_vibrant_subtitles` and consumed by `_fix_timing_overlaps`.
The `end` key is rendered as `stop`. -/
structure RawCue where
  text : String
  start : ℚ
  stop : ℚ
  deriving DecidableEq, Inhabited, Repr

/-- A resolved subtitle cue, a dict with keys `text`, `start`, `duration`
as appended to `fixed_segments` by `_fix_timing_overlaps`. -/
structure TimedCue where
  text : String
  start : ℚ
  duration : ℚ
  deriving DecidableEq, Inhabited, Repr

/-- The body of the `for i, segment in enumerate(segments)` loop of
`_fix_timing_overlaps`: given the current segment and, when a next segment
exists, its start time, compute the emitted dict.
`ideal_duration = max(min_display_time, min(max_display_time, end - start))`;
when a next segment exists and `start + ideal_duration > next_start -
min_gap_between_text`, the duration shrinks to
`max(0.5, max_end_time - start)`; finally
`final_duration = max(min_display_time, ideal_duration)`. -/
def resolveCue (seg : RawCue) (nextStart : Option ℚ) : TimedCue :=
  let ideal := max min_display_time (min max_display_time (seg.stop - seg.start))
  let ideal2 :=
    match nextStart with
    | some ns =>
        let maxEnd := ns - min_gap_between_text
        if seg.start + ideal > maxEnd then max (1/2) (maxEnd - seg.start) else ideal
    | none => ideal
  { text := seg.text, start := seg.start, duration := max min_display_time ideal2 }

/-- `VideoCreator._fix_timing_overlaps`: walk the segment list in order;
each segment sees the start of its successor (if any) and is resolved by
`resolveCue`.  An empty input returns `[]`. -/
def fixTimingOverlaps : List RawCue → List TimedCue
  | [] => []
  | [s] => [resolveCue s none]
  | s :: s2 :: rest => resolveCue s (some s2.start) :: fixTimingOverlaps (s2 :: rest)

/-- `clamp(value, lo, hi)` as used by the spec's overlap algorithm. -/
def clamp (value lo hi : ℚ) : ℚ := max lo (min hi value)

/-- The per-cue duration of the spec section 4.2 algorithm, written from the
spec's words: `ideal_duration = clamp(end - start, 1.0, 3.0)`; if a next cue
exists and `start + ideal_duration > next_start - 0.1`, replace it by
`max(0.5, (next_start - 0.1) - start)`; emit `max(1.0, ideal_duration)`. -/
def specCueDuration (cur : RawCue) (nextStart : Option ℚ) : ℚ :=
  let ideal := clamp (cur.stop - cur.start) 1 3
  let ideal2 :=
    match nextStart with
    | some ns =>
        if cur.start + ideal > ns - 1/10 then max (1/2) ((ns - 1/10) - cur.start)
        else ideal
    | none => ideal
  max 1 ideal2

/-- Whitespace in the sense of Python `str.strip` / `str.split`
(ASCII whitespace characters). -/
def isPySpace (c : Char) : Bool :=
  c = ' ' || c = '\t' || c = '\n' || c = '\r' || c = '\x0b' || c = '\x0c'

/-- Python `str.strip()`: drop leading and trailing whitespace. -/
def pyStrip (s : String) : String :=
  String.mk (((s.data.dropWhile isPySpace).reverse.dropWhile isPySpace).reverse)

/-- Python `str.lower()`: character-wise lowercasing. -/
def pyLower (s : String) : String := String.mk (s.data.map Char.toLower)

/-- Helper for Python `str.split()` with no separator: accumulate the
current chunk; a whitespace character closes it (empty chunks dropped). -/
def pySplitAux (cur : List Char) : List Char → List (List Char)
  | [] => if cur = [] then [] else [cur]
  | c :: rest =>
    if isPySpace c then
      if cur = [] then pySplitAux [] rest else cur :: pySplitAux [] rest
    else pySplitAux (cur ++ [c]) rest

/-- Python `str.split()` with no separator: split on whitespace runs,
dropping empty chunks. -/
def pySplit (s : String) : List String := (pySplitAux [] s.data).map String.mk

/-- `word["word"].strip().endswith(('.', '!', '?', ','))` from
`_create_word_groups`: the stripped text's last character is one of the
four boundary punctuation marks. -/
def isBoundaryWord (s : String) : Bool :=
  ((pyStrip s).data.getLast?).any (fun c => c = '.' || c = '!' || c = '?' || c = ',')

/-- A whisper word record, a dict with keys `word`, `start`, `end` as
consumed by `_create_word_groups`.  The `end` key is rendered as `stop`. -/
structure Word where
  word : String
  start : ℚ
  stop : ℚ
  deriving DecidableEq, Inhabited, Repr

/-- The loop of `VideoCreator._create_word_groups`: append the word to the
current group; flush when the group has reached 7 words, or has at least 4
words and the just-appended word is a boundary word; a non-empty final
group is flushed at the end. -/
def groupWordsAux (cur : List Word) : List Word → List (List Word)
  | [] => if cur = [] then [] else [cur]
  | w :: rest =>
    let cur2 := cur ++ [w]
    if 7 ≤ cur2.length then cur2 :: groupWordsAux [] rest
    else if 4 ≤ cur2.length ∧ isBoundaryWord w.word then cur2 :: groupWordsAux [] rest
    else groupWordsAux cur2 rest

/-- `VideoCreator._create_word_groups`. -/
def createWordGroups (words : List Word) : List (List Word) := groupWordsAux [] words

/-- Rendered length of a line of words: word lengths plus one separating
space between adjacent words. -/
def lineLen (line : List String) : Nat := (line.map String.length).sum + (line.length - 1)

/-- Greedy line packing: a word joins the current line when the line stays
within `width`; otherwise the line is flushed and the word opens a new
line.  A word is never split, so a line holding a single over-long word may
exceed `width`. -/
def wrapAux (width : Nat) (cur : List String) : List String → List (List String)
  | [] => if cur = [] then [] else [cur]
  | w :: rest =>
    match cur with
    | [] => wrapAux width [w] rest
    | _ :: _ =>
      if lineLen (cur ++ [w]) ≤ width then wrapAux width (cur ++ [w]) rest
      else cur :: wrapAux width [w] rest

/-- Modelled from the spec: `VideoCreator._smart_text_wrap` delegates to the
Python standard library `textwrap.wrap(text, width=max_chars_per_line,
break_long_words=False, break_on_hyphens=False)`, which is not part of this
repository.  Per spec section 4.3 this is the standard greedy word-wrap:
whitespace is collapsed, words are packed onto a line while the running
length (plus separating spaces) stays within the limit, and a new line
starts otherwise; words are never split and hyphens are never break
points.  Cue text is represented by its whitespace-collapsed word
sequence, each output line by its word sequence. -/
def smartTextWrapLines (width : Nat) (words : List String) : List (List String) :=
  wrapAux width [] words

/-- The outcome of `_resize_to_shorts_format_with_random_start` on the
timing axis: either the resized source looped up to a duration, or a
window `[start, stop)` cut from it. -/
inductive FramedClip where
  | looped (duration : ℚ)
  | window (start stop : ℚ)
  deriving DecidableEq, Repr

/-- Output duration of a framed clip. -/
def FramedClip.duration : FramedClip → ℚ
  | .looped d => d
  | .window s e => e - s

/-- The start offset chosen by `_resize_to_shorts_format_with_random_start`
once looping is ruled out: `0` when `max_start_time <= 0`, otherwise the
value `draw` produced by `random.uniform(0, max_start_time)`. -/
def chooseStartOffset (maxStart draw : ℚ) : ℚ := if maxStart ≤ 0 then 0 else draw

/-- Timing behaviour of `_resize_to_shorts_format_with_random_start`: when
the (resized) background is shorter than the required duration, loop it to
exactly the required duration; otherwise cut
`[random_start, random_start + required_duration)`. -/
def resizeWithRandomStart (source target draw : ℚ) : FramedClip :=
  if source < target then .looped target
  else
    .window (chooseStartOffset (source - target) draw)
      (chooseStartOffset (source - target) draw + target)

/-- `Config.SIMILARITY_THRESHOLD = 0.7` from `src/utils/config.py`. -/
def SIMILARITY_THRESHOLD : ℚ := 7/10

/-- `set(fact.lower().split())` as used in `is_fact_duplicate`. -/
def wordSet (s : String) : Finset String := (pySplit (pyLower s)).toFinset

/-- One iteration of the `is_fact_duplicate` loop: Jaccard similarity of
the word sets, computed only when the union is non-empty (`if union > 0`),
compared strictly against the threshold. -/
def similarToExisting (newWords : Finset String) (existingFact : String) : Bool :=
  let existingWords := wordSet existingFact
  let inter := (newWords ∩ existingWords).card
  let union := (newWords ∪ existingWords).card
  if 0 < union then decide (SIMILARITY_THRESHOLD < (inter : ℚ) / (union : ℚ)) else false

/-- `ScriptGenerator.is_fact_duplicate`, with the stored facts for the
topic passed explicitly (the Python method reads them from the JSON-backed
store via `get_existing_facts`). -/
def is_fact_duplicate (newFact : String) (existingFacts : List String) : Bool :=
  existingFacts.any (similarToExisting (wordSet newFact))

/-- Successor start times of a cue list: cue `i` is paired with
`some (start of cue i+1)`, the last cue with `none`. -/
def nextStartsOf : List RawCue → List (Option ℚ)
  | [] => []
  | [_] => [none]
  | _ :: s2 :: rest => some s2.start :: nextStartsOf (s2 :: rest)

/-- The whole overlap algorithm as the spec section 4.2 states it, cue by
cue: start and text are kept, the duration is `specCueDuration`. -/
def specOverlapResolver (segs : List RawCue) : List TimedCue :=
  (segs.zip (nextStartsOf segs)).map
    (fun p => { text := p.1.text, start := p.1.start, duration := specCueDuration p.1 p.2 })

lemma resolveCue_eq_specCue (seg : RawCue) (ns : Option ℚ) :
    resolveCue seg ns = ⟨seg.text, seg.start, specCueDuration seg ns⟩ := by
  cases ns <;>
    simp [resolveCue, specCueDuration, clamp, min_display_time, max_display_time,
      min_gap_between_text]

lemma fixTimingOverlaps_map_start (segs : List RawCue) :
    (fixTimingOverlaps segs).map TimedCue.start = segs.map RawCue.start := by
  induction segs with
  | nil => rfl
  | cons s rest ih =>
    cases rest with
    | nil => simp [fixTimingOverlaps, resolveCue]
    | cons s2 rest2 => simp [fixTimingOverlaps, resolveCue] at ih ⊢; exact ih

lemma fixTimingOverlaps_map_text (segs : List RawCue) :
    (fixTimingOverlaps segs).map TimedCue.text = segs.map RawCue.text := by
  induction segs with
  | nil => rfl
  | cons s rest ih =>
    cases rest with
    | nil => simp [fixTimingOverlaps, resolveCue]
    | cons s2 rest2 => simp [fixTimingOverlaps, resolveCue] at ih ⊢; exact ih

lemma fixTimingOverlaps_length (segs : List RawCue) :
    (fixTimingOverlaps segs).length = segs.length := by
  have h := congrArg List.length (fixTimingOverlaps_map_start segs)
  simpa using h

lemma fixTimingOverlaps_duration_ge (segs : List RawCue) :
    ∀ tc ∈ fixTimingOverlaps segs, min_display_time ≤ tc.duration := by
  induction segs with
  | nil => intro tc h; simp [fixTimingOverlaps] at h
  | cons s rest ih =>
    cases rest with
    | nil =>
      intro tc h
      simp [fixTimingOverlaps] at h
      subst h
      simp [resolveCue]
    | cons s2 rest2 =>
      intro tc h
      simp only [fixTimingOverlaps, List.mem_cons] at h
      rcases h with h | h
      · subst h; simp [resolveCue]
      · exact ih tc h

lemma fixTimingOverlaps_getD_start (segs : List RawCue) (i : Nat) (hi : i < segs.length) :
    ((fixTimingOverlaps segs).getD i default).start = (segs.getD i default).start := by
  have hlen := fixTimingOverlaps_length segs
  have h1 : i < (fixTimingOverlaps segs).length := by rw [hlen]; exact hi
  rw [List.getD_eq_getElem _ _ h1, List.getD_eq_getElem _ _ hi]
  have h2 := congrArg (fun l => l[i]?) (fixTimingOverlaps_map_start segs)
  simp only [List.getElem?_map] at h2
  rw [List.getElem?_eq_getElem h1, List.getElem?_eq_getElem hi] at h2
  simpa using h2

lemma fixTimingOverlaps_getD_text (segs : List RawCue) (i : Nat) (hi : i < segs.length) :
    ((fixTimingOverlaps segs).getD i default).text = (segs.getD i default).text := by
  have hlen := fixTimingOverlaps_length segs
  have h1 : i < (fixTimingOverlaps segs).length := by rw [hlen]; exact hi
  rw [List.getD_eq_getElem _ _ h1, List.getD_eq_getElem _ _ hi]
  have h2 := congrArg (fun l => l[i]?) (fixTimingOverlaps_map_text segs)
  simp only [List.getElem?_map] at h2
  rw [List.getElem?_eq_getElem h1, List.getElem?_eq_getElem hi] at h2
  simpa using h2

lemma fixTimingOverlaps_getD_mem (segs : List RawCue) (i : Nat)
    (hi : i < (fixTimingOverlaps segs).length) :
    (fixTimingOverlaps segs).getD i default ∈ fixTimingOverlaps segs := by
  rw [List.getD_eq_getElem _ _ hi]
  exact List.getElem_mem hi

/-- C1: `_fix_timing_overlaps` implements exactly the per-cue algorithm of
spec section 4.2: for every input sequence of RawCues, processed in order,
cue `i` gets duration `max(1.0, ideal_duration)` where
`ideal_duration = clamp(end - start, 1.0, 3.0)`, shrunk to
`max(0.5, (next_start - 0.1) - start)` when a successor exists and
`start + ideal_duration > next_start - 0.1`; the last cue has no successor
constraint. -/
theorem fix_timing_overlaps_implements_spec_algorithm (segs : List RawCue) :
    fixTimingOverlaps segs = specOverlapResolver segs := by
  induction segs with
  | nil => rfl
  | cons s rest ih =>
    cases rest with
    | nil =>
      simp [fixTimingOverlaps, specOverlapResolver, nextStartsOf, resolveCue_eq_specCue]
    | cons s2 rest2 =>
      show resolveCue s (some s2.start) :: fixTimingOverlaps (s2 :: rest2) = _
      rw [ih]
      simp [specOverlapResolver, nextStartsOf, resolveCue_eq_specCue]

/-- C2: the Overlap Resolver keeps the cue count, and every output cue
keeps the start time and the text of the input cue at the same index. -/
theorem overlap_resolver_preserves_count_start_text (segs : List RawCue) :
    (fixTimingOverlaps segs).length = segs.length ∧
    ∀ i : Nat, i < segs.length →
      ((fixTimingOverlaps segs).getD i default).start = (segs.getD i default).start ∧
      ((fixTimingOverlaps segs).getD i default).text = (segs.getD i default).text :=
  ⟨fixTimingOverlaps_length segs, fun i hi =>
    ⟨fixTimingOverlaps_getD_start segs i hi, fixTimingOverlaps_getD_text segs i hi⟩⟩

/-- Witness for C2 on the concrete one-cue input `[("hi", 0, 2)]`. -/
theorem overlap_resolver_preserves_count_start_text_witness :
    (fixTimingOverlaps [⟨"hi", 0, 2⟩]).length = ([⟨"hi", (0:ℚ), 2⟩] : List RawCue).length ∧
    ((fixTimingOverlaps [⟨"hi", 0, 2⟩]).getD 0 default).start
        = (([⟨"hi", (0:ℚ), 2⟩] : List RawCue).getD 0 default).start ∧
    ((fixTimingOverlaps [⟨"hi", 0, 2⟩]).getD 0 default).text
        = (([⟨"hi", (0:ℚ), 2⟩] : List RawCue).getD 0 default).text := by
  have h := overlap_resolver_preserves_count_start_text [⟨"hi", 0, 2⟩]
  have h2 := h.2 0 (by decide)
  exact ⟨h.1, h2.1, h2.2⟩

/-- C3: every output duration is at least `0.5`, and when a successor
exists with slack of at least `min_display_time + min_gap_between_text`
between the two start times, the duration is at least
`min_display_time`. -/
theorem overlap_resolver_duration_bound (segs : List RawCue) (i : Nat)
    (hi : i < (fixTimingOverlaps segs).length) :
    1/2 ≤ ((fixTimingOverlaps segs).getD i default).duration ∧
    (i + 1 < segs.length →
      min_display_time + min_gap_between_text ≤
          (segs.getD (i+1) default).start - (segs.getD i default).start →
        min_display_time ≤ ((fixTimingOverlaps segs).getD i default).duration) := by
  have hmem := fixTimingOverlaps_getD_mem segs i hi
  have hge := fixTimingOverlaps_duration_ge segs _ hmem
  have hmin : (1:ℚ)/2 ≤ min_display_time := by norm_num [min_display_time]
  exact ⟨le_trans hmin hge, fun _ _ => hge⟩

/-- Witness for C3 on the concrete input `[("a", 0, 2), ("b", 2, 3)]` at
index `0` (its successor starts `2.0` later, so slack holds). -/
theorem overlap_resolver_duration_bound_witness :
    1/2 ≤ ((fixTimingOverlaps [⟨"a", (0:ℚ), 2⟩, ⟨"b", 2, 3⟩]).getD 0 default).duration ∧
    min_display_time
      ≤ ((fixTimingOverlaps [⟨"a", (0:ℚ), 2⟩, ⟨"b", 2, 3⟩]).getD 0 default).duration := by
  have h := overlap_resolver_duration_bound [⟨"a", (0:ℚ), 2⟩, ⟨"b", 2, 3⟩] 0
    (by rw [fixTimingOverlaps_length]; decide)
  refine ⟨h.1, h.2 (by decide) ?_⟩
  simp only [List.getD_cons_succ, List.getD_cons_zero, min_display_time, min_gap_between_text]
  norm_num

/-- C4 counterexample: on the start-sorted input
`[("a", 0, 3), ("b", 0.6, 2)]` the first output cue ends after the second
cue starts: its emitted duration is floored at `min_display_time = 1.0`,
so `start 0 + duration 1.0 > 0.6`. -/
theorem overlap_resolver_overlap_counterexample :
    (([⟨"a", (0:ℚ), 3⟩, ⟨"b", 3/5, 2⟩] : List RawCue).getD 0 default).start
        < (([⟨"a", (0:ℚ), 3⟩, ⟨"b", 3/5, 2⟩] : List RawCue).getD 1 default).start ∧
    ((fixTimingOverlaps [⟨"a", (0:ℚ), 3⟩, ⟨"b", 3/5, 2⟩]).getD 1 default).start
      < ((fixTimingOverlaps [⟨"a", (0:ℚ), 3⟩, ⟨"b", 3/5, 2⟩]).getD 0 default).start
        + ((fixTimingOverlaps [⟨"a", (0:ℚ), 3⟩, ⟨"b", 3/5, 2⟩]).getD 0 default).duration := by
  constructor
  · simp only [List.getD_cons_succ, List.getD_cons_zero]
    norm_num
  · show (resolveCue ⟨"b", 3/5, 2⟩ none).start
      < (resolveCue ⟨"a", 0, 3⟩ (some (3/5))).start
        + (resolveCue ⟨"a", 0, 3⟩ (some (3/5))).duration
    norm_num [resolveCue, min_display_time, max_display_time, min_gap_between_text,
      max_def, min_def]

/-- C4 (amended): when consecutive input starts are at least
`min_display_time + min_gap_between_text` (= 1.1s) apart, the output cues
do not overlap: `TimedCue[i].start + TimedCue[i].duration <=
TimedCue[i+1].start`.  Without that slack the `max(min_display_time, ·)`
floor can push a cue past its successor's start. -/
theorem overlap_resolver_no_overlap_under_slack (segs : List RawCue) (i : Nat)
    (h2 : i + 1 < segs.length)
    (hslack : min_display_time + min_gap_between_text ≤
        (segs.getD (i+1) default).start - (segs.getD i default).start) :
    ((fixTimingOverlaps segs).getD i default).start
        + ((fixTimingOverlaps segs).getD i default).duration
      ≤ ((fixTimingOverlaps segs).getD (i+1) default).start := by
  induction segs generalizing i with
  | nil => simp at h2
  | cons s rest ih =>
    cases rest with
    | nil => simp at h2
    | cons s2 rest2 =>
      cases i with
      | zero =>
        have hs : ((fixTimingOverlaps (s :: s2 :: rest2)).getD 1 default).start = s2.start := by
          have h0 : (0:Nat) < (s2 :: rest2).length := by simp
          have hst := fixTimingOverlaps_getD_start (s2 :: rest2) 0 h0
          show ((resolveCue s (some s2.start) :: fixTimingOverlaps (s2 :: rest2)).getD 1
              default).start = s2.start
          rw [List.getD_cons_succ]
          simpa using hst
        have hslack' : min_display_time + min_gap_between_text ≤ s2.start - s.start := by
          simpa using hslack
        rw [hs]
        have hgd0 : (fixTimingOverlaps (s :: s2 :: rest2)).getD 0 default
            = resolveCue s (some s2.start) := by
          show (resolveCue s (some s2.start) :: fixTimingOverlaps (s2 :: rest2)).getD 0 default
            = resolveCue s (some s2.start)
          rw [List.getD_cons_zero]
        rw [hgd0]
        simp only [resolveCue, min_display_time, max_display_time, min_gap_between_text] at *
        split_ifs with h
        · have hm : (1:ℚ) ≤ s2.start - 1/10 - s.start := by linarith
          rw [max_eq_right (by linarith : (1:ℚ)/2 ≤ s2.start - 1/10 - s.start)]
          rw [max_eq_right (by linarith : (1:ℚ) ≤ s2.start - 1/10 - s.start)]
          linarith
        · push_neg at h
          have hi1 : (1:ℚ) ≤ max 1 (min 3 (s.stop - s.start)) := le_max_left _ _
          rw [max_eq_right hi1]
          linarith
      | succ j =>
        have h2' : j + 1 < (s2 :: rest2).length := by simpa using h2
        have hslack' : min_display_time + min_gap_between_text ≤
            ((s2 :: rest2).getD (j+1) default).start
              - ((s2 :: rest2).getD j default).start := by
          simpa [List.getD_cons_succ] using hslack
        have hrec := ih j h2' hslack'
        show ((resolveCue s (some s2.start) :: fixTimingOverlaps (s2 :: rest2)).getD (j+1)
            default).start
            + ((resolveCue s (some s2.start) :: fixTimingOverlaps (s2 :: rest2)).getD (j+1)
            default).duration
          ≤ ((resolveCue s (some s2.start) :: fixTimingOverlaps (s2 :: rest2)).getD (j+1+1)
            default).start
        simpa [List.getD_cons_succ] using hrec

/-- Witness for the amended C4 on `[("a", 0, 2), ("b", 2, 3)]` at index
`0`: slack is `2.0 >= 1.1`, and the first cue ends by `1.9 <= 2`. -/
theorem overlap_resolver_no_overlap_under_slack_witness :
    ((fixTimingOverlaps [⟨"a", (0:ℚ), 2⟩, ⟨"b", 2, 3⟩]).getD 0 default).start
        + ((fixTimingOverlaps [⟨"a", (0:ℚ), 2⟩, ⟨"b", 2, 3⟩]).getD 0 default).duration
      ≤ ((fixTimingOverlaps [⟨"a", (0:ℚ), 2⟩, ⟨"b", 2, 3⟩]).getD 1 default).start :=
  overlap_resolver_no_overlap_under_slack [⟨"a", (0:ℚ), 2⟩, ⟨"b", 2, 3⟩] 0 (by decide)
    (by simp only [List.getD_cons_succ, List.getD_cons_zero, min_display_time,
          min_gap_between_text]
        norm_num)

/-- C5 counterexample (negation of the claimed existence): no input
sequence ever produces an output cue whose duration lies in
`[0.5, min_display_time)`; the final `max(min_display_time, ·)` floor
forbids it. -/
theorem overlap_resolver_no_subminimum_duration :
    ¬ ∃ (segs : List RawCue) (tc : TimedCue), tc ∈ fixTimingOverlaps segs ∧
        tc.duration < min_display_time ∧ 1/2 ≤ tc.duration := by
  rintro ⟨segs, tc, hmem, hlt, -⟩
  exact absurd (fixTimingOverlaps_duration_ge segs tc hmem) (not_le.mpr hlt)

/-- C5 (amended): on an input whose next cue starts soon after the current
cue's start, the overlap shrink fires, but the emitted duration is floored
back to exactly `min_display_time`; in general every emitted duration is
at least `min_display_time`, so the minimum-display invariant is never
relaxed below `1.0` in the output. -/
theorem overlap_resolver_shrink_floored_at_min_display :
    ((fixTimingOverlaps [⟨"a", (0:ℚ), 3⟩, ⟨"b", 3/5, 2⟩]).getD 0 default).duration
        = min_display_time ∧
    ∀ (segs : List RawCue), ∀ tc ∈ fixTimingOverlaps segs,
      min_display_time ≤ tc.duration := by
  constructor
  · show (resolveCue ⟨"a", 0, 3⟩ (some (3/5))).duration = min_display_time
    norm_num [resolveCue, min_display_time, max_display_time, min_gap_between_text,
      max_def, min_def]
  · exact fixTimingOverlaps_duration_ge

/-- Witness for the amended C5 on the one-cue input `[("w", 0, 2)]`. -/
theorem overlap_resolver_shrink_floored_at_min_display_witness :
    min_display_time ≤ (resolveCue ⟨"w", (0:ℚ), 2⟩ none).duration :=
  overlap_resolver_shrink_floored_at_min_display.2 [⟨"w", (0:ℚ), 2⟩]
    (resolveCue ⟨"w", (0:ℚ), 2⟩ none) (by simp [fixTimingOverlaps])

/-- The last word of a group ends (after stripping) in boundary
punctuation. -/
def lastEndsBoundary (g : List Word) : Bool :=
  (g.getLast?).any (fun w => isBoundaryWord w.word)

lemma mem_dropLast_cons {α : Type} {a : α} {l : List α} {g : α}
    (hg : g ∈ (a :: l).dropLast) : (g = a ∧ l ≠ []) ∨ g ∈ l.dropLast := by
  cases l with
  | nil => simp at hg
  | cons b l2 =>
    rw [List.dropLast_cons₂] at hg
    rcases List.mem_cons.mp hg with rfl | h
    · exact Or.inl ⟨rfl, by simp⟩
    · exact Or.inr h

lemma groupWordsAux_flatten (ws : List Word) :
    ∀ cur, (groupWordsAux cur ws).flatten = cur ++ ws := by
  induction ws with
  | nil => intro cur; by_cases h : cur = [] <;> simp [groupWordsAux, h]
  | cons w rest ih =>
    intro cur
    simp only [groupWordsAux]
    split_ifs with h1 h2
    · simp [ih]
    · simp [ih]
    · rw [ih (cur ++ [w])]; simp

lemma groupWordsAux_mem_bounds (ws : List Word) : ∀ cur, cur.length ≤ 6 →
    ∀ g ∈ groupWordsAux cur ws, 1 ≤ g.length ∧ g.length ≤ 7 := by
  induction ws with
  | nil =>
    intro cur hcur g hg
    by_cases h : cur = []
    · simp [groupWordsAux, h] at hg
    · simp only [groupWordsAux, if_neg h, List.mem_singleton] at hg
      subst hg
      exact ⟨List.length_pos.mpr h, le_trans hcur (by norm_num)⟩
  | cons w rest ih =>
    intro cur hcur g hg
    simp only [groupWordsAux] at hg
    split_ifs at hg with h1 h2
    · rcases List.mem_cons.mp hg with rfl | hg'
      · simp only [List.length_append, List.length_cons, List.length_nil]
        omega
      · exact ih [] (by simp) g hg'
    · rcases List.mem_cons.mp hg with rfl | hg'
      · simp only [List.length_append, List.length_cons, List.length_nil]
        omega
      · exact ih [] (by simp) g hg'
    · refine ih (cur ++ [w]) ?_ g hg
      simp only [List.length_append, List.length_cons, List.length_nil] at h1 ⊢
      omega

lemma groupWordsAux_dropLast_boundary (ws : List Word) : ∀ cur, cur.length ≤ 6 →
    ∀ g ∈ (groupWordsAux cur ws).dropLast,
      g.length = 7 ∨ (4 ≤ g.length ∧ lastEndsBoundary g = true) := by
  induction ws with
  | nil =>
    intro cur hcur g hg
    by_cases h : cur = [] <;> simp [groupWordsAux, h] at hg
  | cons w rest ih =>
    intro cur hcur g hg
    simp only [groupWordsAux] at hg
    split_ifs at hg with h1 h2
    · rcases mem_dropLast_cons hg with ⟨rfl, -⟩ | hg'
      · left
        simp only [List.length_append, List.length_cons, List.length_nil] at h1 hcur ⊢
        omega
      · exact ih [] (by simp) g hg'
    · rcases mem_dropLast_cons hg with ⟨rfl, -⟩ | hg'
      · right
        refine ⟨h2.1, ?_⟩
        simp only [lastEndsBoundary, List.getLast?_append, List.getLast?_singleton,
          Option.any_some]
        exact h2.2
      · exact ih [] (by simp) g hg'
    · refine ih (cur ++ [w]) ?_ g hg
      simp only [List.length_append, List.length_cons, List.length_nil] at h1 ⊢
      omega

/-- C6: concatenating the groups of `_create_word_groups`, in order,
reproduces the input word sequence exactly; every group has between 1 and
7 words; a zero-word input yields zero groups. -/
theorem word_grouping_completeness (ws : List Word) :
    (createWordGroups ws).flatten = ws ∧
    (∀ g ∈ createWordGroups ws, 1 ≤ g.length ∧ g.length ≤ 7) ∧
    createWordGroups ([] : List Word) = [] := by
  refine ⟨?_, ?_, rfl⟩
  · simpa using groupWordsAux_flatten ws []
  · intro g hg
    exact groupWordsAux_mem_bounds ws [] (by simp) g hg

/-- Witness for C6 on the concrete one-word input. -/
theorem word_grouping_completeness_witness :
    (createWordGroups [⟨"hi", (0:ℚ), 1⟩]).flatten = [⟨"hi", (0:ℚ), 1⟩] ∧
    (1 ≤ ([⟨"hi", (0:ℚ), 1⟩] : List Word).length ∧
      ([⟨"hi", (0:ℚ), 1⟩] : List Word).length ≤ 7) := by
  have h := word_grouping_completeness [⟨"hi", (0:ℚ), 1⟩]
  exact ⟨h.1, h.2.1 [⟨"hi", (0:ℚ), 1⟩] (by decide)⟩

/-- C7: every group other than the final one that has fewer than 7 words
was closed early by punctuation: it has at least 4 words and its last
word's stripped text ends in one of `. ! ? ,`. -/
theorem word_grouping_boundary (ws : List Word) (g : List Word)
    (hg : g ∈ (createWordGroups ws).dropLast) (hlt : g.length < 7) :
    4 ≤ g.length ∧ lastEndsBoundary g = true := by
  rcases groupWordsAux_dropLast_boundary ws [] (by simp) g hg with h | h
  · omega
  · exact h

/-- Witness for C7: on a five-word input whose fourth word ends in `.`,
the first (non-final) group has exactly the first four words. -/
theorem word_grouping_boundary_witness :
    4 ≤ ([⟨"so", (0:ℚ), 1⟩, ⟨"it", 1, 2⟩, ⟨"goes", 2, 3⟩, ⟨"on.", 3, 4⟩] : List Word).length ∧
    lastEndsBoundary
        [⟨"so", (0:ℚ), 1⟩, ⟨"it", 1, 2⟩, ⟨"goes", 2, 3⟩, ⟨"on.", 3, 4⟩] = true :=
  word_grouping_boundary
    [⟨"so", (0:ℚ), 1⟩, ⟨"it", 1, 2⟩, ⟨"goes", 2, 3⟩, ⟨"on.", 3, 4⟩, ⟨"yes", 4, 5⟩]
    [⟨"so", (0:ℚ), 1⟩, ⟨"it", 1, 2⟩, ⟨"goes", 2, 3⟩, ⟨"on.", 3, 4⟩]
    (by decide) (by decide)

lemma wrapAux_flatten (width : Nat) (ws : List String) :
    ∀ cur, (wrapAux width cur ws).flatten = cur ++ ws := by
  induction ws with
  | nil => intro cur; by_cases h : cur = [] <;> simp [wrapAux, h]
  | cons w rest ih =>
    intro cur
    cases cur with
    | nil => simpa using ih [w]
    | cons a cur2 =>
      simp only [wrapAux]
      split_ifs with h
      · rw [ih ((a :: cur2) ++ [w])]; simp
      · simp only [List.flatten_cons]
        rw [ih [w]]; simp

lemma wrapAux_line_bound (width : Nat) (ws : List String) : ∀ cur,
    (cur = [] ∨ lineLen cur ≤ width ∨ ∃ w, cur = [w]) →
    ∀ line ∈ wrapAux width cur ws,
      lineLen line ≤ width ∨ ∃ w, line = [w] := by
  induction ws with
  | nil =>
    intro cur hcur line hline
    by_cases h : cur = []
    · simp [wrapAux, h] at hline
    · simp only [wrapAux, if_neg h, List.mem_singleton] at hline
      subst hline
      rcases hcur with rfl | h' | h'
      · exact absurd rfl h
      · exact Or.inl h'
      · exact Or.inr h'
  | cons w rest ih =>
    intro cur hcur line hline
    cases cur with
    | nil =>
      exact ih [w] (Or.inr (Or.inr ⟨w, rfl⟩)) line (by simpa using hline)
    | cons a cur2 =>
      simp only [wrapAux] at hline
      split_ifs at hline with h
      · exact ih ((a :: cur2) ++ [w]) (Or.inr (Or.inl h)) line hline
      · rcases List.mem_cons.mp hline with rfl | hline'
        · rcases hcur with h' | h' | h'
          · exact absurd h' (by simp)
          · exact Or.inl h'
          · exact Or.inr h'
        · exact ih [w] (Or.inr (Or.inr ⟨w, rfl⟩)) line hline'

/-- C8: for every word sequence and positive width, the greedy wrapper
reproduces the input word sequence exactly (joining all lines in order
drops or splits nothing), and no output line exceeds the width unless it
is a single word longer than the width. -/
theorem smart_text_wrap_fidelity (width : Nat) (_hw : 0 < width) (words : List String) :
    (smartTextWrapLines width words).flatten = words ∧
    ∀ line ∈ smartTextWrapLines width words,
      lineLen line ≤ width ∨ ∃ w, line = [w] ∧ width < w.length := by
  constructor
  · simpa using wrapAux_flatten width words []
  · intro line hline
    rcases wrapAux_line_bound width words [] (Or.inl rfl) line hline with h | ⟨w, rfl⟩
    · exact Or.inl h
    · rcases le_or_lt w.length width with h2 | h2
      · exact Or.inl (by simpa [lineLen] using h2)
      · exact Or.inr ⟨w, rfl, h2⟩

/-- Witness for C8 at width 5 on the two-word input. -/
theorem smart_text_wrap_fidelity_witness :
    (smartTextWrapLines 5 ["ab", "cd"]).flatten = ["ab", "cd"] ∧
    (lineLen ["ab", "cd"] ≤ 5 ∨ ∃ w, ["ab", "cd"] = [w] ∧ 5 < w.length) := by
  have h := smart_text_wrap_fidelity 5 (by decide) ["ab", "cd"]
  exact ⟨h.1, h.2 ["ab", "cd"] (by decide)⟩

/-- C9: whenever the source lasts at least the target duration, then for
every draw the random source yields in `[0, source - target]` the chosen
start offset keeps the window inside the source, is `0` when the durations
are equal, and the clip is the window `[offset, offset + target)`; when
the source is shorter, the clip is the source looped to exactly the target
duration (the draw range only constrains the windowing half: no draw is
taken on the looping path). -/
theorem background_window_bound (source target draw : ℚ) :
    (target ≤ source → 0 ≤ draw → draw ≤ source - target →
      0 ≤ chooseStartOffset (source - target) draw ∧
      chooseStartOffset (source - target) draw + target ≤ source ∧
      (source = target → chooseStartOffset (source - target) draw = 0) ∧
      resizeWithRandomStart source target draw =
        FramedClip.window (chooseStartOffset (source - target) draw)
          (chooseStartOffset (source - target) draw + target)) ∧
    (source < target →
      resizeWithRandomStart source target draw = FramedClip.looped target ∧
      (FramedClip.looped target).duration = target) := by
  constructor
  · intro hle hd0 hd1
    refine ⟨?_, ?_, ?_, by simp [resizeWithRandomStart, not_lt.mpr hle]⟩
    · unfold chooseStartOffset
      split_ifs with h
      · exact le_refl 0
      · exact hd0
    · unfold chooseStartOffset
      split_ifs with h
      · linarith
      · linarith
    · intro heq
      unfold chooseStartOffset
      split_ifs with h
      · rfl
      · exact absurd (by rw [heq, sub_self]) h
  · intro hlt
    exact ⟨by simp [resizeWithRandomStart, hlt], rfl⟩

/-- Witness for C9, exercising both regimes: the windowing half at source
10, target 4, draw 3, and the looping half at source 4, target 10. -/
theorem background_window_bound_witness :
    (0 ≤ chooseStartOffset ((10:ℚ) - 4) 3 ∧
      chooseStartOffset ((10:ℚ) - 4) 3 + 4 ≤ 10 ∧
      ((10:ℚ) = 4 → chooseStartOffset ((10:ℚ) - 4) 3 = 0) ∧
      resizeWithRandomStart 10 4 3 =
        FramedClip.window (chooseStartOffset ((10:ℚ) - 4) 3)
          (chooseStartOffset ((10:ℚ) - 4) 3 + 4)) ∧
    (resizeWithRandomStart 4 10 0 = FramedClip.looped 10 ∧
      (FramedClip.looped (10:ℚ)).duration = 10) :=
  ⟨(background_window_bound 10 4 3).1 (by norm_num) (by norm_num) (by norm_num),
    (background_window_bound 4 10 0).2 (by norm_num)⟩

/-- C10: `is_fact_duplicate` reports a duplicate exactly when some stored
fact's word set has a non-empty union with the new fact's word set and
Jaccard similarity strictly above the threshold `0.7`; a pair of facts
with empty word sets is skipped by the `union > 0` guard (no division by
zero) and never reported as a duplicate. -/
theorem is_fact_duplicate_similarity_spec (newFact : String)
    (existingFacts : List String) :
    (is_fact_duplicate newFact existingFacts = true ↔
      ∃ f ∈ existingFacts,
        0 < (wordSet newFact ∪ wordSet f).card ∧
        SIMILARITY_THRESHOLD <
          ((wordSet newFact ∩ wordSet f).card : ℚ) /
            ((wordSet newFact ∪ wordSet f).card : ℚ)) ∧
    (∀ f : String, wordSet newFact = ∅ → wordSet f = ∅ →
      similarToExisting (wordSet newFact) f = false) := by
  constructor
  · rw [is_fact_duplicate, List.any_eq_true]
    constructor
    · rintro ⟨f, hf, hsim⟩
      refine ⟨f, hf, ?_⟩
      by_cases hu : 0 < (wordSet newFact ∪ wordSet f).card
      · refine ⟨hu, ?_⟩
        simp only [similarToExisting, if_pos hu, decide_eq_true_eq] at hsim
        exact hsim
      · simp only [similarToExisting, if_neg hu] at hsim
        exact absurd hsim (by simp)
    · rintro ⟨f, hf, hu, hlt⟩
      refine ⟨f, hf, ?_⟩
      simp only [similarToExisting, if_pos hu, decide_eq_true_eq]
      exact hlt
  · intro f h1 h2
    simp [similarToExisting, h1, h2]

/-- Witness for C10: two empty-word-set facts are skipped, not reported. -/
theorem is_fact_duplicate_similarity_spec_witness :
    similarToExisting (wordSet "") "" = false :=
  (is_fact_duplicate_similarity_spec "" []).2 "" (by decide) (by decide)

end YTShorts
